import Mathlib

/-!
Verification of the GreatClips coupon finder (`scraper.py`).

The scraper is embedded shallowly: every network interaction is a
parameter (search-backend result lists, a page-to-links function, a
fetch-outcome value), and the pure logic of the source — URL
validation, area matching, deduplication, the heading-driven section
state machine, the money-pattern search and the run loop — is
translated into executable Lean definitions.  ASCII semantics are used
for the character-level parts of Python (`str.lower`, `re.IGNORECASE`,
`\w`, `\s`, `str.strip`).
-/

/-! ## ASCII character helpers -/

/-- ASCII lower-casing on code points, modelling `re.IGNORECASE` folding. -/
def asciiLowerN (n : Nat) : Nat := if 65 ≤ n ∧ n ≤ 90 then n + 32 else n

/-- Membership in the regex word class `\w` = `[A-Za-z0-9_]` (ASCII model). -/
def isWordNat (n : Nat) : Bool :=
  decide ((65 ≤ n ∧ n ≤ 90) ∨ (97 ≤ n ∧ n ≤ 122) ∨ (48 ≤ n ∧ n ≤ 57) ∨ n = 95)

def isWordChar (c : Char) : Bool := isWordNat c.toNat

/-- Case-insensitive character equality, as used by `re.IGNORECASE`. -/
def ciEq (a b : Char) : Bool := asciiLowerN a.toNat == asciiLowerN b.toNat

/-- The regex whitespace class `\s` (ASCII model, Python `[ \t\n\r\x0b\x0c]`). -/
def isPySpace (c : Char) : Bool :=
  c == ' ' || c == '\t' || c == '\n' || c == '\r' || c == '\x0b' || c == '\x0c'

/-- Python `str.strip()`: drop leading and trailing whitespace. -/
def pyStrip (s : String) : String :=
  String.mk (((s.data.dropWhile isPySpace).reverse.dropWhile isPySpace).reverse)

/-! ## Area matcher (`GreatClipsScraper._matches_area`, scraper.py lines 81-89)

The source runs `re.search(r'\b' + re.escape(target_area) + r'\b', text,
re.IGNORECASE)`.  Because of `re.escape`, the target area is matched as a
literal; `\b` holds at a position iff exactly one of the two adjacent
characters (string edges counting as non-word) is a `\w` character. -/

/-- Case-insensitive "the first list is a prefix of the second". -/
def ciStarts : List Char → List Char → Bool
  | [], _ => true
  | _ :: _, [] => false
  | a :: as, b :: bs => ciEq a b && ciStarts as bs

/-- Is the character at index `i` a word character (out of range: no)? -/
def wordAtPos (t : List Char) (i : Nat) : Bool := isWordChar (t.getD i ' ')

/-- Is the character just before position `i` a word character? -/
def prevIsWord (t : List Char) (i : Nat) : Bool :=
  match i with
  | 0 => false
  | j + 1 => wordAtPos t j

/-- The regex word-boundary assertion `\b` at position `i` of `t`. -/
def reBoundary (t : List Char) (i : Nat) : Bool := prevIsWord t i != wordAtPos t i

/-- `\b<area>\b` (area escaped, IGNORECASE) matches `t` at position `i`. -/
def reMatchAt (a t : List Char) (i : Nat) : Bool :=
  reBoundary t i && ciStarts a (t.drop i) && reBoundary t (i + a.length)

/-- Embeds `_matches_area`: `re.search` succeeds iff the pattern matches at
some position of the text. -/
def matches_area (target text : String) : Bool :=
  (List.range (text.data.length + 1)).any (fun i => reMatchAt target.data text.data i)

/-- Spec-side left bound: the occurrence starts at the string edge or right
after a non-word character (claim C1's wording). -/
def specLeftBound (t : List Char) (i : Nat) : Bool :=
  match i with
  | 0 => true
  | j + 1 => !wordAtPos t j

/-- Spec-side right bound: the occurrence ends at the string edge or right
before a non-word character (claim C1's wording). -/
def specRightBound (t : List Char) (j : Nat) : Bool :=
  (j == t.length) || !wordAtPos t j

/-- Spec-side: a case-insensitive occurrence of `a` at position `i`, bounded
by non-word characters or string edges on both sides. -/
def specWholeWordAt (a t : List Char) (i : Nat) : Bool :=
  specLeftBound t i && ciStarts a (t.drop i) && specRightBound t (i + a.length)

/-- Modelled from the claim's words: `text` contains `target` as a
case-insensitive whole-word/phrase occurrence. -/
def specAreaMatch (target text : String) : Bool :=
  (List.range (text.data.length + 1)).any (fun i => specWholeWordAt target.data text.data i)

/-! ## URL validator (`GreatClipsScraper._is_valid_coupon_url`, lines 68-79)

`urllib.parse.urlparse` is embedded for the three fields the validator
reads: `scheme` (lower-cased, accepted only when the text before the first
colon is a well-formed scheme), `netloc` (present only after `//`) and
`path`. -/

def isSchemeChar (c : Char) : Bool := c.isAlphanum || c == '+' || c == '-' || c == '.'

structure UrlParts where
  scheme : String
  netloc : String
  path : String

/-- Embeds the `urllib.parse.urlparse` fields used by the validator. -/
def urlparse (url : String) : UrlParts :=
  let l := url.data
  let pre := l.takeWhile (fun c => c != ':')
  let schemeRest :=
    if pre.length < l.length && !pre.isEmpty && (pre.headD ' ').isAlpha && pre.all isSchemeChar
    then (pre.map Char.toLower, l.drop (pre.length + 1))
    else (([] : List Char), l)
  let netlocRest :=
    match schemeRest.2 with
    | '/' :: '/' :: r =>
      let n := r.takeWhile (fun c => !(c == '/' || c == '?' || c == '#'))
      (n, r.drop n.length)
    | _ => (([] : List Char), schemeRest.2)
  let path := netlocRest.2.takeWhile (fun c => !(c == '?' || c == '#'))
  ⟨String.mk schemeRest.1, String.mk netlocRest.1, String.mk path⟩

/-- Embeds `_is_valid_coupon_url`. -/
def is_valid_coupon_url (url : String) : Bool :=
  let p := urlparse url
  (p.scheme == "http" || p.scheme == "https")
    && p.netloc == "offers.greatclips.com"
    && decide (1 < p.path.length)

/-- Spec-side acceptance condition of the URL Validator (claim C2's words):
scheme `http` or `https`, host exactly the vendor's coupon host, path longer
than just `/`. -/
def urlValidatorSpec (url : String) : Prop :=
  let p := urlparse url
  (p.scheme = "http" ∨ p.scheme = "https")
    ∧ p.netloc = "offers.greatclips.com"
    ∧ 1 < p.path.length

/-! ## Link extractor (`_extract_coupon_links_from_page`, lines 91-113)

The fetch and parse are abstracted into a `LinkFetch` outcome: on success it
carries the `href` attribute values of the page's anchors in document order;
every `except` branch of the source is a failure constructor. -/

inductive LinkFetch where
  | success (hrefs : List String)
  | connectionError
  | timeoutError
  | httpError
  | otherError

/-- Embeds `_extract_coupon_links_from_page`: append each validated href; any
caught failure yields the empty list. -/
def extract_coupon_links_from_page (f : LinkFetch) : List String :=
  match f with
  | LinkFetch.success hrefs =>
    hrefs.foldl (fun links href => if is_valid_coupon_url href then links ++ [href] else links) []
  | _ => []

/-! ## Discovery orchestrator (`discover_coupons`, lines 182-247) -/

/-- The module constant `KNOWN_AGGREGATORS` (lines 43-50). -/
def KNOWN_AGGREGATORS : List String :=
  [ "https://greatclipsdeal.com/",
    "https://coupons-greatclips.com/9-99",
    "https://coupons-greatclips.com/8-99",
    "https://coupons-greatclips.com/5-off",
    "https://coupons-greatclips.com/7-99",
    "https://coupons-greatclips.com/14-99" ]

/-- One step of the source's `seen`/`unique` dedup loops (lines 213-218 and
235-240): the `seen` set is modelled as the list of values added so far. -/
def seenStep (st : List String × List String) (u : String) : List String × List String :=
  if u ∈ st.1 then st else (u :: st.1, st.2 ++ [u])

/-- The source's first-seen dedup loop over a `seen` set and a `unique` list. -/
def dedupKeepFirst (xs : List String) : List String :=
  (xs.foldl seenStep ([], [])).2

/-- One step of the loop at lines 208-210: append `k` unless already present. -/
def appendIfAbsent (acc : List String) (k : String) : List String :=
  if k ∈ acc then acc else acc ++ [k]

/-- Lines 207-210: append every known aggregator not already present. -/
def addKnownAggregators (allPages : List String) : List String :=
  KNOWN_AGGREGATORS.foldl appendIfAbsent allPages

/-- Lines 192-218: the deduplicated page list, from the three backend result
lists (Google, DuckDuckGo, Bing, concatenated in source order). -/
def discoverPages (google ddg bing : List String) : List String :=
  dedupKeepFirst (addKnownAggregators ((google ++ ddg) ++ bing))

/-- Embeds `discover_coupons`, with the three search backends' result lists
and the per-page link extraction as parameters. -/
def discover_coupons (google ddg bing : List String)
    (extractLinks : String → List String) : List String :=
  let uniquePages := discoverPages google ddg bing
  let allCouponUrls := uniquePages.foldl (fun acc p => acc ++ extractLinks p) []
  dedupKeepFirst allCouponUrls

/-- Spec-side first-seen deduplication: keep each value's first occurrence,
in order of first occurrence. -/
def firstSeenDedup : List String → List String
  | [] => []
  | x :: xs => x :: firstSeenDedup (xs.filter (fun y => y != x))
termination_by l => l.length
decreasing_by
  simp only [List.length_cons]
  exact Nat.lt_succ_of_le (List.length_filter_le _ xs)

/-! ## Detail extractor (`extract_coupon_details`, lines 249-322)

The parsed `#offer-details` region is abstracted as a flattened, ordered
token stream: `h4` headings, text-bearing tags (`p`/`div`/`span`/`li`, text
already extracted with `get_text(strip=True)`), and anything else. -/

inductive Tok where
  | h4 (text : String)
  | content (text : String)
  | other

inductive SectionState where
  | none
  | description
  | terms

/-- Exact "the first list starts the second" check. -/
def strStarts : List Char → List Char → Bool
  | [], _ => true
  | _ :: _, [] => false
  | a :: as, b :: bs => a == b && strStarts as bs

/-- `pat` occurs somewhere in `l`. -/
def hasSubList (pat l : List Char) : Bool :=
  match l with
  | [] => pat.isEmpty
  | _ :: rest => strStarts pat l || hasSubList pat rest

/-- Substring containment, modelling Python's `in` on strings. -/
def strContainsSub (s pat : String) : Bool := hasSubList pat.data s.data

/-- One step of the descendant walk (lines 263-280): headings switch the
current section, text tags append to the active accumulator. -/
def stepTok (st : SectionState × String × String) (tok : Tok) :
    SectionState × String × String :=
  match tok with
  | Tok.h4 t =>
    let heading := t.toLower
    if strContainsSub heading "description" then (SectionState.description, st.2.1, st.2.2)
    else if strContainsSub heading "term" then (SectionState.terms, st.2.1, st.2.2)
    else (SectionState.none, st.2.1, st.2.2)
  | Tok.content txt =>
    if txt = "" then st
    else
      match st.1 with
      | SectionState.description => (st.1, st.2.1 ++ " " ++ txt, st.2.2)
      | SectionState.terms => (st.1, st.2.1, st.2.2 ++ " " ++ txt)
      | SectionState.none => st
  | Tok.other => st

/-- Lines 255-289: the (description, terms) pair.  `marker` is the parsed
`#offer-details` region (`none` when the element is absent), `body` the
page's body text used by the fallback branch. -/
def extractSections (marker : Option (List Tok)) (body : Option String) :
    String × String :=
  match marker with
  | some toks =>
    let fin := toks.foldl stepTok (SectionState.none, "", "")
    (pyStrip fin.2.1, pyStrip fin.2.2)
  | none =>
    let d := match body with
      | some b => b
      | none => ""
    (pyStrip d, pyStrip "")

/-- Spec-side transition function of claim C4's state machine: driven only
by the heading text. -/
def specTransition (_s : SectionState) (heading : String) : SectionState :=
  let h := heading.toLower
  if strContainsSub h "description" then SectionState.description
  else if strContainsSub h "term" then SectionState.terms
  else SectionState.none

/-- Spec-side collection: the lists of non-empty text-node contents falling
in the DESCRIPTION and TERMS sections respectively; text under state NONE is
discarded. -/
def specCollect : SectionState → List Tok → List String × List String
  | _, [] => ([], [])
  | s, Tok.h4 t :: rest => specCollect (specTransition s t) rest
  | s, Tok.content txt :: rest =>
    let p := specCollect s rest
    if txt = "" then p
    else
      match s with
      | SectionState.description => (txt :: p.1, p.2)
      | SectionState.terms => (p.1, txt :: p.2)
      | SectionState.none => p
  | s, Tok.other :: rest => specCollect s rest

/-- Concatenation of `" " ++ x` over a list (the shape of the source's
accumulator). -/
def preJoin : List String → String
  | [] => ""
  | x :: xs => (" " ++ x) ++ preJoin xs

/-- Space-join of a list of strings. -/
def joinSpace : List String → String
  | [] => ""
  | x :: xs => x ++ preJoin xs

/-- Spec-side section text: the space-join of the collected texts (stripped,
as the source strips both accumulators at lines 288-289). -/
def specJoin (l : List String) : String := pyStrip (joinSpace l)

/-- Spec-side of claim C4: the partition of the marker region's content, or
the whole-body fallback when the marker is absent. -/
def specPartition (marker : Option (List Tok)) (body : Option String) :
    String × String :=
  match marker with
  | some toks =>
    let p := specCollect SectionState.none toks
    (specJoin p.1, specJoin p.2)
  | none =>
    (pyStrip ((body.getD "")), "")

/-! ## Offer value (`re.search(r'\$\d+(?:\.\d{2})?(?:\s*off)?', ...)`,
lines 294-300) -/

def isOffO (c : Char) : Bool := c == 'o' || c == 'O'
def isOffF (c : Char) : Bool := c == 'f' || c == 'F'

/-- The optional `(?:\.\d{2})?` group: cents, or nothing. -/
def fracPart (l : List Char) : List Char × List Char :=
  match l with
  | '.' :: a :: b :: r => if a.isDigit && b.isDigit then (['.', a, b], r) else ([], l)
  | _ => ([], l)

/-- The optional `(?:\s*off)?` group (IGNORECASE): greedy whitespace then
`off`, or nothing. -/
def offPart (l : List Char) : List Char :=
  let ws := l.takeWhile isPySpace
  match l.dropWhile isPySpace with
  | o :: f :: g :: _ => if isOffO o && isOffF f && isOffF g then ws ++ [o, f, g] else []
  | _ => []

/-- The whole pattern anchored at the head of `l`: `\$\d+(?:\.\d{2})?(?:\s*off)?`. -/
def matchMoneyAt (l : List Char) : Option (List Char) :=
  match l with
  | '$' :: rest =>
    let ds := rest.takeWhile Char.isDigit
    if ds.isEmpty then none
    else
      let p := fracPart (rest.dropWhile Char.isDigit)
      some ('$' :: (ds ++ p.1 ++ offPart p.2))
  | _ => none

/-- `re.search`: the match at the leftmost position where one exists. -/
def findMoney : List Char → Option (List Char)
  | [] => none
  | c :: rest =>
    match matchMoneyAt (c :: rest) with
    | some m => some m
    | none => findMoney rest

/-- Lines 295-300: the extracted offer value, `"Unknown"` when the pattern
does not occur. -/
def offerValueOf (blob : String) : String :=
  match findMoney blob.data with
  | some m => String.mk m
  | none => "Unknown"

/-- Spec-side monetary string: a dollar amount with optional cents,
optionally followed by whitespace and the word `off` (case-insensitive). -/
def isMoneyStr (s : List Char) : Prop :=
  ∃ ds frac off, s = '$' :: (ds ++ frac ++ off) ∧ ds ≠ [] ∧ (∀ c ∈ ds, c.isDigit)
    ∧ (frac = [] ∨ ∃ a b, frac = ['.', a, b] ∧ a.isDigit ∧ b.isDigit)
    ∧ (off = [] ∨ ∃ ws o f g, off = ws ++ [o, f, g] ∧ (∀ c ∈ ws, isPySpace c)
        ∧ isOffO o ∧ isOffF f ∧ isOffF g)

/-- Spec-side: a monetary pattern occurs somewhere in the blob. -/
def moneyOccurs (blob : String) : Prop :=
  ∃ pre s post, blob.data = pre ++ s ++ post ∧ isMoneyStr s

/-! ## Coupon detail records and the pipeline runner (`run`, lines 324-354) -/

structure CouponRecord where
  url : String
  area_text : String
  offer_value : String
  is_target : Bool

/-- Fetch/parse outcome of a coupon detail page; each failure constructor is
one `except` branch of lines 308-322. -/
inductive DetailFetch where
  | success (marker : Option (List Tok)) (body : Option String)
  | connectionError
  | timeoutError
  | httpError
  | parseError
  | otherError

/-- Embeds `extract_coupon_details`: on a successful fetch and parse, build
the record from the sectioned text; every failure yields absence. -/
def extract_coupon_details (target url : String) (f : DetailFetch) :
    Option CouponRecord :=
  match f with
  | DetailFetch.success marker body =>
    let p := extractSections marker body
    let allText := p.1 ++ " " ++ p.2
    some { url := url, area_text := allText, offer_value := offerValueOf allText,
           is_target := matches_area target allText }
  | _ => none

/-- One iteration of the loop at lines 334-347: keep a produced record when
`is_target` holds. -/
def runStep (extractDetails : String → Option CouponRecord)
    (acc : List CouponRecord) (url : String) : List CouponRecord :=
  match extractDetails url with
  | some d => if d.is_target then acc ++ [d] else acc
  | none => acc

/-- Embeds `run`: discovery once, early return of the instance accumulator
`found_coupons` when no URL was discovered, otherwise the detail loop
appending matches to the accumulator. -/
def runPipeline (google ddg bing : List String) (extractLinks : String → List String)
    (extractDetails : String → Option CouponRecord)
    (found_coupons : List CouponRecord) : List CouponRecord :=
  let urls := discover_coupons google ddg bing extractLinks
  if urls = [] then found_coupons
  else urls.foldl (runStep extractDetails) found_coupons

/-! ## String helper lemmas -/

theorem string_data_append (a b : String) : (a ++ b).data = a.data ++ b.data := rfl

theorem string_append_assoc (a b c : String) : a ++ b ++ c = a ++ (b ++ c) := by
  apply String.ext
  simp only [string_data_append, List.append_assoc]

theorem string_append_empty (s : String) : s ++ "" = s := by
  apply String.ext
  simp only [string_data_append]
  show s.data ++ [] = s.data
  exact List.append_nil _

theorem string_empty_append (s : String) : "" ++ s = s := by
  apply String.ext
  simp only [string_data_append]
  rfl

theorem pyStrip_space_append (s : String) : pyStrip (" " ++ s) = pyStrip s := by
  unfold pyStrip
  have h : (" " ++ s).data = ' ' :: s.data := rfl
  rw [h]
  rw [List.dropWhile_cons]
  simp [isPySpace]

/-! ## First-seen deduplication lemmas -/

theorem mem_firstSeenDedup (a : String) (l : List String) :
    a ∈ firstSeenDedup l ↔ a ∈ l := by
  induction l using firstSeenDedup.induct with
  | case1 => simp [firstSeenDedup]
  | case2 x xs ih =>
    rw [firstSeenDedup]
    simp only [List.mem_cons, ih, List.mem_filter, bne_iff_ne]
    constructor
    · rintro (rfl | ⟨h, _⟩)
      · exact Or.inl rfl
      · exact Or.inr h
    · rintro (rfl | h)
      · exact Or.inl rfl
      · by_cases hx : a = x
        · exact Or.inl hx
        · exact Or.inr ⟨h, hx⟩

theorem nodup_firstSeenDedup (l : List String) : (firstSeenDedup l).Nodup := by
  induction l using firstSeenDedup.induct with
  | case1 => simp [firstSeenDedup]
  | case2 x xs ih =>
    rw [firstSeenDedup]
    refine List.nodup_cons.mpr ⟨?_, ih⟩
    intro hmem
    rw [mem_firstSeenDedup] at hmem
    have := (List.mem_filter.mp hmem).2
    simp [bne_iff_ne] at this

theorem firstSeenDedup_eq_self (l : List String) (h : l.Nodup) :
    firstSeenDedup l = l := by
  induction l using firstSeenDedup.induct with
  | case1 => simp [firstSeenDedup]
  | case2 x xs ih =>
    rw [firstSeenDedup]
    have hx : xs.filter (fun y => y != x) = xs := by
      rw [List.filter_eq_self]
      intro a ha
      rw [bne_iff_ne]
      rintro rfl
      exact (List.nodup_cons.mp h).1 ha
    rw [hx] at ih ⊢
    rw [ih (List.nodup_cons.mp h).2]

theorem firstSeenDedup_append (as : List String) : ∀ bs : List String,
    firstSeenDedup (as ++ bs) =
      firstSeenDedup as ++ firstSeenDedup (bs.filter (fun y => !decide (y ∈ as))) := by
  induction as using firstSeenDedup.induct with
  | case1 =>
    intro bs
    have hid : bs.filter (fun y => !decide (y ∈ ([] : List String))) = bs := by
      rw [List.filter_eq_self]; intro a _; simp
    rw [List.nil_append, hid, show firstSeenDedup [] = [] by simp [firstSeenDedup],
      List.nil_append]
  | case2 x xs ih =>
    intro bs
    rw [List.cons_append, firstSeenDedup, firstSeenDedup, List.filter_append,
      ih (bs.filter (fun y => y != x)), List.cons_append]
    congr 2
    apply congrArg firstSeenDedup
    rw [List.filter_filter]
    apply List.filter_congr
    intro y _
    rw [Bool.eq_iff_iff]
    simp only [Bool.and_eq_true, Bool.not_eq_true', bne_iff_ne,
      decide_eq_false_iff_not, List.mem_filter, List.mem_cons]
    tauto

theorem foldl_appendIfAbsent (xs : List String) : ∀ acc : List String,
    xs.foldl appendIfAbsent acc =
      acc ++ firstSeenDedup (xs.filter (fun y => !decide (y ∈ acc))) := by
  induction xs with
  | nil =>
    intro acc
    show acc = acc ++ firstSeenDedup []
    rw [show firstSeenDedup [] = [] by simp [firstSeenDedup], List.append_nil]
  | cons x xs ih =>
    intro acc
    rw [List.foldl_cons]
    by_cases hx : x ∈ acc
    · rw [show appendIfAbsent acc x = acc from if_pos hx, ih acc]
      congr 2
      rw [List.filter_cons, if_neg (by simp [hx])]
    · rw [show appendIfAbsent acc x = acc ++ [x] from if_neg hx, ih (acc ++ [x])]
      rw [List.filter_cons, if_pos (by simp [hx]), firstSeenDedup, List.append_assoc,
        List.singleton_append]
      congr 2
      apply congrArg firstSeenDedup
      rw [List.filter_filter]
      apply List.filter_congr
      intro y _
      rw [Bool.eq_iff_iff]
      simp only [Bool.and_eq_true, bne_iff_ne, Bool.not_eq_true', decide_eq_false_iff_not,
        List.mem_append, List.mem_singleton]
      tauto

theorem foldl_seenStep (xs : List String) : ∀ seen uniq : List String,
    (∀ y : String, y ∈ seen ↔ y ∈ uniq) →
    (xs.foldl seenStep (seen, uniq)).2 = xs.foldl appendIfAbsent uniq := by
  induction xs with
  | nil => intro seen uniq _; rfl
  | cons x xs ih =>
    intro seen uniq h
    rw [List.foldl_cons, List.foldl_cons]
    by_cases hx : x ∈ seen
    · rw [show seenStep (seen, uniq) x = (seen, uniq) from if_pos hx,
        show appendIfAbsent uniq x = uniq from if_pos ((h x).mp hx)]
      exact ih seen uniq h
    · have hx2 : x ∉ uniq := fun hc => hx ((h x).mpr hc)
      rw [show seenStep (seen, uniq) x = (x :: seen, uniq ++ [x]) from if_neg hx,
        show appendIfAbsent uniq x = uniq ++ [x] from if_neg hx2]
      apply ih
      intro y
      simp only [List.mem_cons, List.mem_append, List.mem_singleton, h y]
      tauto

theorem dedupKeepFirst_eq (xs : List String) : dedupKeepFirst xs = firstSeenDedup xs := by
  unfold dedupKeepFirst
  rw [foldl_seenStep xs [] [] (fun y => Iff.rfl), foldl_appendIfAbsent xs [],
    List.nil_append]
  congr 1
  rw [List.filter_eq_self]
  intro a _
  simp

theorem foldl_extendLinks (f : String → List String) (xs : List String) :
    ∀ acc : List String, xs.foldl (fun acc p => acc ++ f p) acc = acc ++ xs.flatMap f := by
  induction xs with
  | nil => intro acc; rw [List.foldl_nil, List.flatMap_nil, List.append_nil]
  | cons x xs ih =>
    intro acc
    rw [List.foldl_cons, ih (acc ++ f x), List.flatMap_cons, List.append_assoc]

theorem discoverPages_eq (g d b : List String) :
    discoverPages g d b = firstSeenDedup (((g ++ d) ++ b) ++ KNOWN_AGGREGATORS) := by
  unfold discoverPages addKnownAggregators
  rw [foldl_appendIfAbsent, dedupKeepFirst_eq]
  rw [firstSeenDedup_append ((g ++ d) ++ b), firstSeenDedup_append ((g ++ d) ++ b)]
  congr 1
  have h1 : (firstSeenDedup (KNOWN_AGGREGATORS.filter
      (fun y => !decide (y ∈ (g ++ d) ++ b)))).filter (fun y => !decide (y ∈ (g ++ d) ++ b))
      = firstSeenDedup (KNOWN_AGGREGATORS.filter (fun y => !decide (y ∈ (g ++ d) ++ b))) := by
    rw [List.filter_eq_self]
    intro a ha
    rw [mem_firstSeenDedup] at ha
    exact (List.mem_filter.mp ha).2
  rw [h1, firstSeenDedup_eq_self _ (nodup_firstSeenDedup _)]

theorem discover_coupons_eq (g d b : List String) (f : String → List String) :
    discover_coupons g d b f =
      firstSeenDedup ((firstSeenDedup (((g ++ d) ++ b) ++ KNOWN_AGGREGATORS)).flatMap f) := by
  show dedupKeepFirst (List.foldl (fun acc p => acc ++ f p) [] (discoverPages g d b)) =
    firstSeenDedup ((firstSeenDedup (((g ++ d) ++ b) ++ KNOWN_AGGREGATORS)).flatMap f)
  rw [foldl_extendLinks, List.nil_append, dedupKeepFirst_eq, discoverPages_eq]

theorem foldl_filter_append (p : String → Bool) (xs : List String) :
    ∀ acc : List String,
      xs.foldl (fun l h => if p h then l ++ [h] else l) acc = acc ++ xs.filter p := by
  induction xs with
  | nil => intro acc; rw [List.foldl_nil, List.filter_nil, List.append_nil]
  | cons x xs ih =>
    intro acc
    rw [List.foldl_cons, List.filter_cons]
    by_cases hx : p x = true
    · rw [if_pos hx, if_pos hx, ih (acc ++ [x]), List.append_assoc, List.singleton_append]
    · rw [if_neg hx, if_neg hx, ih acc]

theorem extract_links_eq_filter (hrefs : List String) :
    extract_coupon_links_from_page (LinkFetch.success hrefs) =
      hrefs.filter is_valid_coupon_url := by
  show hrefs.foldl _ [] = _
  rw [foldl_filter_append is_valid_coupon_url hrefs [], List.nil_append]

/-! ## Claim theorems -/

/-- C2 (confirmed): the URL Validator accepts a string iff it parses with
scheme `http` or `https`, host exactly `offers.greatclips.com`, and a path
longer than `/`; the model of `urlparse` is total, so no parse outcome
raises.  The spec's five concrete vectors are included. -/
theorem url_validator_spec :
    (∀ url : String, is_valid_coupon_url url = true ↔ urlValidatorSpec url)
    ∧ is_valid_coupon_url "https://offers.greatclips.com/7GqMiDg" = true
    ∧ is_valid_coupon_url "http://offers.greatclips.com/abc123" = true
    ∧ is_valid_coupon_url "https://www.greatclips.com/coupons" = false
    ∧ is_valid_coupon_url "https://offers.greatclips.com/" = false
    ∧ is_valid_coupon_url "" = false
    ∧ is_valid_coupon_url "not a url" = false := by
  refine ⟨?_, by decide, by decide, by decide, by decide, by decide, by decide⟩
  intro url
  simp [is_valid_coupon_url, urlValidatorSpec, Bool.and_eq_true, Bool.or_eq_true,
    beq_iff_eq, decide_eq_true_eq, and_assoc]

/-- C3 (confirmed): the discovered coupon-URL sequence has no duplicates and
is the first-seen deduplication of the link streams extracted from the
deduplicated page list, itself the first-seen deduplication of Google ++
DuckDuckGo ++ Bing ++ known aggregators, in that order. -/
theorem discover_coupons_nodup_first_seen (g d b : List String)
    (extract : String → List String) :
    (discover_coupons g d b extract).Nodup
    ∧ discoverPages g d b = firstSeenDedup (((g ++ d) ++ b) ++ KNOWN_AGGREGATORS)
    ∧ discover_coupons g d b extract =
        firstSeenDedup
          ((firstSeenDedup (((g ++ d) ++ b) ++ KNOWN_AGGREGATORS)).flatMap extract) := by
  refine ⟨?_, discoverPages_eq g d b, discover_coupons_eq g d b extract⟩
  rw [discover_coupons_eq]
  exact nodup_firstSeenDedup _

/-- C7 (confirmed): with all three backends failed (each contributing its
empty sequence), the page list still contains every known aggregator, and
the final coupon list is non-empty whenever some known aggregator yields at
least one link. -/
theorem discover_all_backends_fail (extract : String → List String) :
    (∀ k ∈ KNOWN_AGGREGATORS, k ∈ discoverPages [] [] [])
    ∧ (∀ k ∈ KNOWN_AGGREGATORS, extract k ≠ [] →
        discover_coupons [] [] [] extract ≠ []) := by
  have hKA : firstSeenDedup ((([] ++ []) ++ ([] : List String)) ++ KNOWN_AGGREGATORS)
      = KNOWN_AGGREGATORS := by
    rw [List.nil_append, List.nil_append, List.nil_append]
    exact firstSeenDedup_eq_self _ (by decide)
  have hpages : discoverPages [] [] [] = KNOWN_AGGREGATORS := by
    rw [discoverPages_eq, hKA]
  constructor
  · intro k hk
    rw [hpages]
    exact hk
  · intro k hk hne hcontra
    rw [discover_coupons_eq, hKA] at hcontra
    obtain ⟨u, hu⟩ : ∃ u, u ∈ extract k := List.exists_mem_of_ne_nil _ hne
    have hmem : u ∈ firstSeenDedup (KNOWN_AGGREGATORS.flatMap extract) := by
      rw [mem_firstSeenDedup]
      exact List.mem_flatMap.mpr ⟨k, hk, hu⟩
    rw [hcontra] at hmem
    exact List.not_mem_nil u hmem

/-- Witness for C7 at a concrete input: one known aggregator yielding one
link makes discovery non-empty. -/
theorem discover_all_backends_fail_witness :
    discover_coupons [] [] []
      (fun p => if p = "https://greatclipsdeal.com/"
        then ["https://offers.greatclips.com/abc1234"] else []) ≠ [] :=
  (discover_all_backends_fail _).2 "https://greatclipsdeal.com/" (by decide) (by decide)

/-- C9 (confirmed): the Link Extractor returns exactly the hyperlink targets
passing the URL Validator, in document order with duplicates kept; every
failure class yields the empty sequence; on the spec's example page the
pre-dedup output has 3 occurrences which the later dedup stage collapses
to 2. -/
theorem link_extractor_spec :
    (∀ hrefs : List String,
      extract_coupon_links_from_page (LinkFetch.success hrefs) =
          hrefs.filter is_valid_coupon_url
        ∧ (extract_coupon_links_from_page (LinkFetch.success hrefs)).Sublist hrefs
        ∧ (∀ u, u ∈ extract_coupon_links_from_page (LinkFetch.success hrefs) ↔
            u ∈ hrefs ∧ is_valid_coupon_url u = true))
    ∧ extract_coupon_links_from_page LinkFetch.connectionError = []
    ∧ extract_coupon_links_from_page LinkFetch.timeoutError = []
    ∧ extract_coupon_links_from_page LinkFetch.httpError = []
    ∧ extract_coupon_links_from_page LinkFetch.otherError = []
    ∧ extract_coupon_links_from_page (LinkFetch.success
        ["https://offers.greatclips.com/abc1234", "https://offers.greatclips.com/xyz5678",
         "https://offers.greatclips.com/abc1234", "https://www.example.com/not-a-coupon"])
      = ["https://offers.greatclips.com/abc1234", "https://offers.greatclips.com/xyz5678",
         "https://offers.greatclips.com/abc1234"]
    ∧ (dedupKeepFirst
        ["https://offers.greatclips.com/abc1234", "https://offers.greatclips.com/xyz5678",
         "https://offers.greatclips.com/abc1234"]).length = 2 := by
  refine ⟨?_, rfl, rfl, rfl, rfl, by decide, by decide⟩
  intro hrefs
  refine ⟨extract_links_eq_filter hrefs, ?_, ?_⟩
  · rw [extract_links_eq_filter]
    exact List.filter_sublist hrefs
  · intro u
    rw [extract_links_eq_filter]
    exact List.mem_filter

theorem foldl_runStep (ed : String → Option CouponRecord) (urls : List String) :
    ∀ found : List CouponRecord,
      urls.foldl (runStep ed) found =
        found ++ (urls.filterMap ed).filter (fun r => r.is_target) := by
  induction urls with
  | nil =>
    intro found
    rw [List.foldl_nil, List.filterMap_nil, List.filter_nil, List.append_nil]
  | cons u urls ih =>
    intro found
    rw [List.foldl_cons]
    cases hu : ed u with
    | none =>
      rw [show runStep ed found u = found from by unfold runStep; rw [hu], ih found,
        List.filterMap_cons, hu]
    | some d =>
      by_cases ht : d.is_target = true
      · rw [show runStep ed found u = found ++ [d] from by simp [runStep, hu, ht],
          ih (found ++ [d]), List.filterMap_cons, hu, List.filter_cons, if_pos (by simpa using ht),
          List.append_assoc, List.singleton_append]
      · rw [show runStep ed found u = found from by simp [runStep, hu, ht],
          ih found, List.filterMap_cons, hu, List.filter_cons, if_neg (by simpa using ht)]

theorem runPipeline_eq (g d b : List String) (el : String → List String)
    (ed : String → Option CouponRecord) (found : List CouponRecord) :
    runPipeline g d b el ed found =
      found ++ ((discover_coupons g d b el).filterMap ed).filter (fun r => r.is_target) := by
  show (if discover_coupons g d b el = [] then found
    else (discover_coupons g d b el).foldl (runStep ed) found) = _
  by_cases h : discover_coupons g d b el = []
  · rw [if_pos h, h, List.filterMap_nil, List.filter_nil, List.append_nil]
  · rw [if_neg h, foldl_runStep]

theorem extract_details_success_eq (target url : String) (marker : Option (List Tok))
    (body : Option String) :
    extract_coupon_details target url (DetailFetch.success marker body) =
      some { url := url,
             area_text := (extractSections marker body).1 ++ " " ++ (extractSections marker body).2,
             offer_value := offerValueOf
               ((extractSections marker body).1 ++ " " ++ (extractSections marker body).2),
             is_target := matches_area target
               ((extractSections marker body).1 ++ " " ++ (extractSections marker body).2) } := rfl

theorem extract_details_is_target (target url : String) (f : DetailFetch) (r : CouponRecord)
    (h : extract_coupon_details target url f = some r) :
    r.is_target = matches_area target r.area_text := by
  cases f with
  | success marker body =>
    rw [extract_details_success_eq, Option.some_inj] at h
    rw [← h]
  | connectionError => simp [extract_coupon_details] at h
  | timeoutError => simp [extract_coupon_details] at h
  | httpError => simp [extract_coupon_details] at h
  | parseError => simp [extract_coupon_details] at h
  | otherError => simp [extract_coupon_details] at h

/-- C6 (confirmed): the runner performs discovery once, returns the empty
list immediately when no URL was discovered (fresh accumulator), and
otherwise returns exactly the produced records whose `is_target` holds, in
discovery order; `is_target` of a produced record is exactly the Area
Matcher's verdict on its `area_text`. -/
theorem run_pipeline_matches_spec (g d b : List String) (el : String → List String)
    (target : String) (fetch : String → DetailFetch) :
    runPipeline g d b el (fun u => extract_coupon_details target u (fetch u)) [] =
      ((discover_coupons g d b el).filterMap
        (fun u => extract_coupon_details target u (fetch u))).filter (fun r => r.is_target)
    ∧ ((discover_coupons g d b el).filterMap
        (fun u => extract_coupon_details target u (fetch u))).filter (fun r => r.is_target) =
      ((discover_coupons g d b el).filterMap
        (fun u => extract_coupon_details target u (fetch u))).filter
          (fun r => matches_area target r.area_text)
    ∧ runPipeline [] [] [] (fun _ => [])
        (fun u => extract_coupon_details target u (fetch u)) [] = [] := by
  refine ⟨?_, ?_, rfl⟩
  · rw [runPipeline_eq, List.nil_append]
  · apply List.filter_congr
    intro r hr
    obtain ⟨u, _, hu⟩ := List.mem_filterMap.mp hr
    rw [extract_details_is_target target u (fetch u) r hu]

/-- C8 (confirmed): every failure class of the detail fetch — connection
failure, timeout, HTTP error, parse failure, unexpected failure — yields
absence (no record); in the embedding each `except` branch is total, so no
failure propagates: a run whose detail extraction always fails leaves the
runner's accumulator unchanged. -/
theorem detail_extractor_failure_absence (target url : String) :
    extract_coupon_details target url DetailFetch.connectionError = none
    ∧ extract_coupon_details target url DetailFetch.timeoutError = none
    ∧ extract_coupon_details target url DetailFetch.httpError = none
    ∧ extract_coupon_details target url DetailFetch.parseError = none
    ∧ extract_coupon_details target url DetailFetch.otherError = none
    ∧ (∀ (urls : List String) (found : List CouponRecord),
        urls.foldl (runStep (fun _ => none)) found = found) := by
  refine ⟨rfl, rfl, rfl, rfl, rfl, ?_⟩
  intro urls found
  rw [foldl_runStep]
  have h : urls.filterMap (fun _ => (none : Option CouponRecord)) = [] := by
    induction urls with
    | nil => rfl
    | cons u urls ih => rw [List.filterMap_cons]; exact ih
  rw [h, List.filter_nil, List.append_nil]

/-- C10 (confirmed): `found_coupons` is an instance accumulator initialized
empty at construction and never reset: `run` returns the accumulator plus
this run's matches, so a second `run` returns the first run's matches plus
the new ones, and the early return on empty discovery returns the previous
accumulator, not a fresh empty list. -/
theorem found_coupons_accumulator_spec (g d b : List String) (el : String → List String)
    (ed : String → Option CouponRecord) (found : List CouponRecord) :
    runPipeline g d b el ed found =
      found ++ ((discover_coupons g d b el).filterMap ed).filter (fun r => r.is_target)
    ∧ (∀ (g2 d2 b2 : List String) (el2 : String → List String)
        (ed2 : String → Option CouponRecord),
        runPipeline g2 d2 b2 el2 ed2 (runPipeline g d b el ed found) =
          runPipeline g d b el ed found ++
            ((discover_coupons g2 d2 b2 el2).filterMap ed2).filter (fun r => r.is_target))
    ∧ runPipeline [] [] [] (fun _ => []) ed found = found :=
  ⟨runPipeline_eq g d b el ed found,
   fun g2 d2 b2 el2 ed2 => runPipeline_eq g2 d2 b2 el2 ed2 _,
   rfl⟩

theorem stepTok_h4 (s : SectionState) (d t : String) (x : String) :
    stepTok (s, d, t) (Tok.h4 x) = (specTransition s x, d, t) := by
  simp only [stepTok, specTransition]
  by_cases h1 : strContainsSub x.toLower "description" = true
  · rw [if_pos h1, if_pos h1]
  · rw [if_neg h1, if_neg h1]
    by_cases h2 : strContainsSub x.toLower "term" = true
    · rw [if_pos h2, if_pos h2]
    · rw [if_neg h2, if_neg h2]

theorem detail_fold (toks : List Tok) : ∀ (s : SectionState) (d t : String),
    ((toks.foldl stepTok (s, d, t)).2.1 = d ++ preJoin (specCollect s toks).1)
    ∧ ((toks.foldl stepTok (s, d, t)).2.2 = t ++ preJoin (specCollect s toks).2) := by
  induction toks with
  | nil =>
    intro s d t
    constructor
    · show d = d ++ preJoin []
      rw [show preJoin [] = "" from rfl, string_append_empty]
    · show t = t ++ preJoin []
      rw [show preJoin [] = "" from rfl, string_append_empty]
  | cons tok rest ih =>
    intro s d t
    cases tok with
    | h4 x =>
      rw [List.foldl_cons, stepTok_h4,
        show specCollect s (Tok.h4 x :: rest) = specCollect (specTransition s x) rest from rfl]
      exact ih (specTransition s x) d t
    | content txt =>
      rw [List.foldl_cons]
      by_cases he : txt = ""
      · subst he
        rw [show stepTok (s, d, t) (Tok.content "") = (s, d, t) from by simp [stepTok],
          show specCollect s (Tok.content "" :: rest) = specCollect s rest from by
            simp [specCollect]]
        exact ih s d t
      · cases s with
        | description =>
          rw [show stepTok (SectionState.description, d, t) (Tok.content txt)
              = (SectionState.description, d ++ " " ++ txt, t) from by
              simp only [stepTok]; rw [if_neg he],
            show specCollect SectionState.description (Tok.content txt :: rest)
              = (txt :: (specCollect SectionState.description rest).1,
                 (specCollect SectionState.description rest).2) from by
              simp only [specCollect]; rw [if_neg he]]
          obtain ⟨ih1, ih2⟩ := ih SectionState.description (d ++ " " ++ txt) t
          refine ⟨?_, ih2⟩
          rw [ih1, show preJoin (txt :: (specCollect SectionState.description rest).1)
            = (" " ++ txt) ++ preJoin (specCollect SectionState.description rest).1 from rfl]
          simp only [string_append_assoc]
        | terms =>
          rw [show stepTok (SectionState.terms, d, t) (Tok.content txt)
              = (SectionState.terms, d, t ++ " " ++ txt) from by
              simp only [stepTok]; rw [if_neg he],
            show specCollect SectionState.terms (Tok.content txt :: rest)
              = ((specCollect SectionState.terms rest).1,
                 txt :: (specCollect SectionState.terms rest).2) from by
              simp only [specCollect]; rw [if_neg he]]
          obtain ⟨ih1, ih2⟩ := ih SectionState.terms d (t ++ " " ++ txt)
          refine ⟨ih1, ?_⟩
          rw [ih2, show preJoin (txt :: (specCollect SectionState.terms rest).2)
            = (" " ++ txt) ++ preJoin (specCollect SectionState.terms rest).2 from rfl]
          simp only [string_append_assoc]
        | none =>
          rw [show stepTok (SectionState.none, d, t) (Tok.content txt)
              = (SectionState.none, d, t) from by
              simp only [stepTok]; rw [if_neg he],
            show specCollect SectionState.none (Tok.content txt :: rest)
              = specCollect SectionState.none rest from by
              simp only [specCollect]; rw [if_neg he]]
          exact ih SectionState.none d t
    | other =>
      rw [List.foldl_cons,
        show stepTok (s, d, t) Tok.other = (s, d, t) from rfl,
        show specCollect s (Tok.other :: rest) = specCollect s rest from rfl]
      exact ih s d t

theorem preJoin_strip (l : List String) : pyStrip (preJoin l) = pyStrip (joinSpace l) := by
  cases l with
  | nil => rfl
  | cons x xs =>
    show pyStrip ((" " ++ x) ++ preJoin xs) = pyStrip (x ++ preJoin xs)
    rw [string_append_assoc, pyStrip_space_append]

/-- C4 (confirmed): with the `offer-details` marker present, content is
partitioned by the {NONE, DESCRIPTION, TERMS} state machine starting in
NONE, transitions driven only by heading text (`description` wins over
`term`, any other heading resets to NONE), non-heading text space-joined
onto the active section and text under NONE discarded; with the marker
absent, the whole body text becomes the description and splitting is
skipped. -/
theorem detail_sections_state_machine (marker : Option (List Tok)) (body : Option String) :
    extractSections marker body = specPartition marker body := by
  cases marker with
  | none =>
    cases body with
    | none => rfl
    | some b => rfl
  | some toks =>
    show (pyStrip ((toks.foldl stepTok (SectionState.none, "", "")).2.1),
          pyStrip ((toks.foldl stepTok (SectionState.none, "", "")).2.2)) =
         (specJoin (specCollect SectionState.none toks).1,
          specJoin (specCollect SectionState.none toks).2)
    obtain ⟨h1, h2⟩ := detail_fold toks SectionState.none "" ""
    rw [h1, h2, string_empty_append, string_empty_append]
    unfold specJoin
    rw [preJoin_strip, preJoin_strip]

theorem fracPart_append (l : List Char) : (fracPart l).1 ++ (fracPart l).2 = l := by
  unfold fracPart
  split
  next a b r =>
    split
    · rfl
    · rfl
  next => rfl

theorem fracPart_shape (l : List Char) :
    (fracPart l).1 = [] ∨ ∃ a b, (fracPart l).1 = ['.', a, b] ∧ a.isDigit ∧ b.isDigit := by
  unfold fracPart
  split
  next a b r =>
    by_cases h : (a.isDigit && b.isDigit) = true
    · right
      obtain ⟨h1, h2⟩ := Bool.and_eq_true_iff.mp h
      exact ⟨a, b, by rw [if_pos h], h1, h2⟩
    · left
      rw [if_neg h]
  next => left; rfl

theorem offPart_isPrefix (l : List Char) : offPart l <+: l := by
  unfold offPart
  split
  next o f g rest heq =>
    split
    · refine ⟨rest, ?_⟩
      rw [List.append_assoc, show (([o, f, g] : List Char) ++ rest) = o :: f :: g :: rest from rfl,
        ← heq, List.takeWhile_append_dropWhile]
    · exact List.nil_prefix
  next => exact List.nil_prefix

theorem offPart_shape (l : List Char) :
    offPart l = [] ∨ ∃ ws o f g, offPart l = ws ++ [o, f, g] ∧ (∀ c ∈ ws, isPySpace c)
      ∧ isOffO o ∧ isOffF f ∧ isOffF g := by
  unfold offPart
  split
  next o f g rest heq =>
    by_cases h : (isOffO o && isOffF f && isOffF g) = true
    · right
      obtain ⟨h12, h3⟩ := Bool.and_eq_true_iff.mp h
      obtain ⟨h1, h2⟩ := Bool.and_eq_true_iff.mp h12
      exact ⟨l.takeWhile isPySpace, o, f, g, by rw [if_pos h],
        fun c hc => List.mem_takeWhile_imp hc, h1, h2, h3⟩
    · left
      rw [if_neg h]
  next => left; rfl

theorem matchMoneyAt_sound (l m : List Char) (h : matchMoneyAt l = some m) :
    isMoneyStr m ∧ m <+: l := by
  unfold matchMoneyAt at h
  split at h
  next rest =>
    by_cases hds : (rest.takeWhile Char.isDigit).isEmpty = true
    · rw [if_pos hds] at h
      exact absurd h (by simp)
    · rw [if_neg hds] at h
      rw [Option.some_inj] at h
      subst h
      constructor
      · refine ⟨rest.takeWhile Char.isDigit, (fracPart (rest.dropWhile Char.isDigit)).1,
          offPart (fracPart (rest.dropWhile Char.isDigit)).2, rfl, ?_, ?_,
          fracPart_shape _, offPart_shape _⟩
        · intro hnil
          rw [hnil] at hds
          exact hds rfl
        · exact fun c hc => List.mem_takeWhile_imp hc
      · obtain ⟨tail2, h3⟩ := offPart_isPrefix (fracPart (rest.dropWhile Char.isDigit)).2
        refine ⟨tail2, ?_⟩
        rw [List.cons_append]
        rw [List.append_assoc, List.append_assoc, h3,
          show (fracPart (rest.dropWhile Char.isDigit)).1 ++ (fracPart (rest.dropWhile Char.isDigit)).2
            = rest.dropWhile Char.isDigit from fracPart_append _,
          List.takeWhile_append_dropWhile]
  next => exact absurd h (by simp)

theorem matchMoneyAt_ne_none_of_money_prefix (l s : List Char) (hm : isMoneyStr s)
    (hp : s <+: l) : matchMoneyAt l ≠ none := by
  obtain ⟨ds, frac, off, hshape, hne, hdig, _, _⟩ := hm
  obtain ⟨t, ht⟩ := hp
  subst hshape
  cases ds with
  | nil => exact absurd rfl hne
  | cons d0 ds1 =>
    have hd0 : d0.isDigit = true := hdig d0 (List.mem_cons_self d0 ds1)
    rw [← ht]
    have hsplit : ('$' :: ((d0 :: ds1) ++ frac ++ off)) ++ t
        = '$' :: (d0 :: (ds1 ++ frac ++ off ++ t)) := by
      simp [List.cons_append, List.append_assoc]
    rw [hsplit]
    unfold matchMoneyAt
    simp [List.takeWhile_cons, hd0]

theorem findMoney_none_iff (l : List Char) :
    findMoney l = none ↔ ∀ i, matchMoneyAt (l.drop i) = none := by
  induction l with
  | nil =>
    constructor
    · intro _ i
      rw [List.drop_nil]
      rfl
    · intro _
      rfl
  | cons c rest ih =>
    constructor
    · intro h i
      cases hm : matchMoneyAt (c :: rest) with
      | some m =>
        simp only [findMoney, hm] at h
        exact absurd h (by simp)
      | none =>
        cases i with
        | zero =>
          rw [List.drop_zero]
          exact hm
        | succ j =>
          simp only [findMoney, hm] at h
          exact ih.mp h j
    · intro h
      have h0 := h 0
      rw [List.drop_zero] at h0
      simp only [findMoney, h0]
      apply ih.mpr
      intro j
      exact h (j + 1)

theorem findMoney_some_exists (l m : List Char) (h : findMoney l = some m) :
    ∃ i, matchMoneyAt (l.drop i) = some m := by
  induction l with
  | nil => simp [findMoney] at h
  | cons c rest ih =>
    cases hm : matchMoneyAt (c :: rest) with
    | some m2 =>
      simp only [findMoney, hm, Option.some_inj] at h
      exact ⟨0, by rw [List.drop_zero, hm, h]⟩
    | none =>
      simp only [findMoney, hm] at h
      obtain ⟨j, hj⟩ := ih h
      exact ⟨j + 1, hj⟩

theorem findMoney_some_head (l m : List Char) (h : findMoney l = some m) :
    ∃ tail, m = '$' :: tail := by
  obtain ⟨i, hi⟩ := findMoney_some_exists l m h
  obtain ⟨⟨ds, frac, off, hshape, _, _, _, _⟩, _⟩ := matchMoneyAt_sound _ _ hi
  exact ⟨ds ++ frac ++ off, hshape⟩

theorem offerValue_unknown_iff (blob : String) :
    offerValueOf blob = "Unknown" ↔ ¬ moneyOccurs blob := by
  constructor
  · intro h hocc
    obtain ⟨pre, s, post, heq, hm⟩ := hocc
    have hnone : findMoney blob.data = none := by
      cases hf : findMoney blob.data with
      | none => rfl
      | some m =>
        exfalso
        obtain ⟨tail, htail⟩ := findMoney_some_head _ _ hf
        unfold offerValueOf at h
        rw [hf] at h
        subst htail
        have h2 : ('$' :: tail) = ("Unknown" : String).data := congrArg String.data h
        rw [show ("Unknown" : String).data = 'U' :: ['n', 'k', 'n', 'o', 'w', 'n'] from rfl] at h2
        injection h2 with hc _
        exact absurd hc (by decide)
    rw [findMoney_none_iff] at hnone
    have hs : s <+: blob.data.drop pre.length := by
      rw [heq, List.append_assoc, List.drop_left]
      exact ⟨post, rfl⟩
    exact matchMoneyAt_ne_none_of_money_prefix _ _ hm hs (hnone pre.length)
  · intro hnocc
    unfold offerValueOf
    cases hf : findMoney blob.data with
    | none => rfl
    | some m =>
      exfalso
      obtain ⟨i, hi⟩ := findMoney_some_exists _ _ hf
      obtain ⟨hm, hp⟩ := matchMoneyAt_sound _ _ hi
      apply hnocc
      obtain ⟨t, ht⟩ := hp
      refine ⟨blob.data.take i, m, t, ?_, hm⟩
      rw [List.append_assoc, ht, List.take_append_drop]

theorem takeWhile_all_append (p : Char → Bool) (u : List Char)
    (hall : ∀ c ∈ u, p c = true) :
    ∀ v, (u ++ v).takeWhile p = u ++ v.takeWhile p := by
  induction u with
  | nil => intro v; rfl
  | cons x u2 ih =>
    intro v
    rw [List.cons_append, List.takeWhile_cons,
      if_pos (hall x (List.mem_cons_self x u2)), ih (fun c hc => hall c (List.mem_cons_of_mem x hc)) v,
      List.cons_append]

theorem dropWhile_all_append (p : Char → Bool) (u : List Char)
    (hall : ∀ c ∈ u, p c = true) :
    ∀ v, (u ++ v).dropWhile p = v.dropWhile p := by
  induction u with
  | nil => intro v; rfl
  | cons x u2 ih =>
    intro v
    rw [List.cons_append, List.dropWhile_cons,
      if_pos (hall x (List.mem_cons_self x u2))]
    exact ih (fun c hc => hall c (List.mem_cons_of_mem x hc)) v

theorem isOffO_facts (o : Char) (h : isOffO o = true) :
    isPySpace o = false ∧ o.isDigit = false ∧ o ≠ '.' := by
  unfold isOffO at h
  simp only [Bool.or_eq_true, beq_iff_eq] at h
  rcases h with rfl | rfl <;> exact ⟨by decide, by decide, by decide⟩

theorem isPySpace_facts (c : Char) (h : isPySpace c = true) :
    c.isDigit = false ∧ c ≠ '.' := by
  unfold isPySpace at h
  simp only [Bool.or_eq_true, beq_iff_eq] at h
  rcases h with ((((rfl | rfl) | rfl) | rfl) | rfl) | rfl <;> exact ⟨by decide, by decide⟩

theorem fracPart_of_ne_dot (c : Char) (tl : List Char) (hc : c ≠ '.') :
    fracPart (c :: tl) = ([], c :: tl) := by
  unfold fracPart
  split
  next a b r heq =>
    injection heq with h1 _
    exact absurd h1 hc
  next => rfl

theorem offPart_of_shape (ws2 : List Char) (o f g : Char) (t : List Char)
    (hws : ∀ c ∈ ws2, isPySpace c = true) (ho : isOffO o = true)
    (hf : isOffF f = true) (hg : isOffF g = true) :
    offPart (ws2 ++ (o :: f :: g :: t)) = ws2 ++ [o, f, g] := by
  have hno : isPySpace o = false := (isOffO_facts o ho).1
  have h1 : (ws2 ++ (o :: f :: g :: t)).takeWhile isPySpace = ws2 := by
    rw [takeWhile_all_append isPySpace ws2 hws, List.takeWhile_cons, if_neg (by simp [hno]),
      List.append_nil]
  have h2 : (ws2 ++ (o :: f :: g :: t)).dropWhile isPySpace = o :: f :: g :: t := by
    rw [dropWhile_all_append isPySpace ws2 hws, List.dropWhile_cons, if_neg (by simp [hno])]
  unfold offPart
  rw [h1, h2]
  show (if (isOffO o && isOffF f && isOffF g) = true then ws2 ++ [o, f, g] else [])
    = ws2 ++ [o, f, g]
  rw [if_pos (by simp [ho, hf, hg])]

theorem matchMoneyAt_maximal (l m : List Char) (hm : matchMoneyAt l = some m) :
    ∀ s, isMoneyStr s → s <+: l → s.length ≤ m.length := by
  intro s hs hp
  obtain ⟨ds2, frac2, off2, hshape, hne2, hdig2, hfrac2, hoff2⟩ := hs
  obtain ⟨t, ht⟩ := hp
  subst hshape
  have hl : l = '$' :: ((ds2 ++ frac2 ++ off2) ++ t) := by
    rw [← ht, List.cons_append]
  subst hl
  simp only [matchMoneyAt] at hm
  by_cases hempty : (((ds2 ++ frac2 ++ off2) ++ t).takeWhile Char.isDigit).isEmpty = true
  · rw [if_pos hempty] at hm
    exact absurd hm (by simp)
  · rw [if_neg hempty, Option.some_inj] at hm
    subst hm
    rcases hfrac2 with rfl | ⟨a, b, rfl, hadig, hbdig⟩
    · rcases hoff2 with rfl | ⟨ws2, o, f, g, rfl, hws, ho, hf2, hg2⟩
      · -- no cents, no `off` in `s`: its digit run is contained in the match's
        have htw : ((ds2 ++ [] ++ []) ++ t).takeWhile Char.isDigit
            = ds2 ++ t.takeWhile Char.isDigit := by
          simp only [List.append_nil]
          exact takeWhile_all_append _ _ hdig2 t
        rw [htw]
        simp only [List.length_cons, List.length_append, List.length_nil]
        omega
      · -- no cents, `off` present in `s`
        have hmassage : (ds2 ++ [] ++ (ws2 ++ [o, f, g])) ++ t
            = ds2 ++ (ws2 ++ (o :: f :: g :: t)) := by
          simp [List.append_assoc]
        simp only [hmassage]
        have hXnd : (ws2 ++ (o :: f :: g :: t)).takeWhile Char.isDigit = [] := by
          cases ws2 with
          | nil =>
            have hod : Char.isDigit o = false := (isOffO_facts o ho).2.1
            simp [List.takeWhile_cons, hod]
          | cons w ws3 =>
            have hwd : Char.isDigit w = false :=
              (isPySpace_facts w (hws w (List.mem_cons_self w ws3))).1
            simp [List.takeWhile_cons, hwd]
        have hXdrop : (ws2 ++ (o :: f :: g :: t)).dropWhile Char.isDigit
            = ws2 ++ (o :: f :: g :: t) := by
          cases ws2 with
          | nil =>
            have hod : Char.isDigit o = false := (isOffO_facts o ho).2.1
            simp [List.dropWhile_cons, hod]
          | cons w ws3 =>
            have hwd : Char.isDigit w = false :=
              (isPySpace_facts w (hws w (List.mem_cons_self w ws3))).1
            simp [List.dropWhile_cons, hwd]
        have htw : (ds2 ++ (ws2 ++ (o :: f :: g :: t))).takeWhile Char.isDigit = ds2 := by
          rw [takeWhile_all_append _ _ hdig2, hXnd, List.append_nil]
        have hdw : (ds2 ++ (ws2 ++ (o :: f :: g :: t))).dropWhile Char.isDigit
            = ws2 ++ (o :: f :: g :: t) := by
          rw [dropWhile_all_append _ _ hdig2, hXdrop]
        have hfz : fracPart (ws2 ++ (o :: f :: g :: t)) = ([], ws2 ++ (o :: f :: g :: t)) := by
          cases ws2 with
          | nil => exact fracPart_of_ne_dot o _ (isOffO_facts o ho).2.2
          | cons w ws3 =>
            exact fracPart_of_ne_dot w _
              (isPySpace_facts w (hws w (List.mem_cons_self w ws3))).2
        have hop : offPart (ws2 ++ (o :: f :: g :: t)) = ws2 ++ [o, f, g] :=
          offPart_of_shape ws2 o f g t hws ho hf2 hg2
        rw [htw, hdw, hfz, hop]
    · -- cents present in `s`
      have hmassage : (ds2 ++ ['.', a, b] ++ off2) ++ t
          = ds2 ++ ('.' :: a :: b :: (off2 ++ t)) := by
        simp [List.append_assoc]
      simp only [hmassage]
      have htw : (ds2 ++ ('.' :: a :: b :: (off2 ++ t))).takeWhile Char.isDigit = ds2 := by
        rw [takeWhile_all_append _ _ hdig2, List.takeWhile_cons,
          if_neg (by decide), List.append_nil]
      have hdw : (ds2 ++ ('.' :: a :: b :: (off2 ++ t))).dropWhile Char.isDigit
          = '.' :: a :: b :: (off2 ++ t) := by
        rw [dropWhile_all_append _ _ hdig2, List.dropWhile_cons, if_neg (by decide)]
      have hfr : fracPart ('.' :: a :: b :: (off2 ++ t)) = (['.', a, b], off2 ++ t) := by
        show (if (a.isDigit && b.isDigit) = true then (['.', a, b], off2 ++ t)
          else ([], '.' :: a :: b :: (off2 ++ t))) = (['.', a, b], off2 ++ t)
        rw [if_pos (by simp [hadig, hbdig])]
      rw [htw, hdw, hfr]
      rcases hoff2 with rfl | ⟨ws2, o, f, g, rfl, hws, ho, hf2, hg2⟩
      · simp only [List.length_cons, List.length_append, List.length_nil]
        omega
      · have hop : offPart ((ws2 ++ [o, f, g]) ++ t) = ws2 ++ [o, f, g] := by
          rw [List.append_assoc, show ([o, f, g] ++ t : List Char) = o :: f :: g :: t from rfl]
          exact offPart_of_shape ws2 o f g t hws ho hf2 hg2
        rw [hop]

theorem findMoney_leftmost (l m : List Char) (h : findMoney l = some m) :
    ∃ i, matchMoneyAt (l.drop i) = some m ∧ ∀ j, j < i → matchMoneyAt (l.drop j) = none := by
  induction l with
  | nil => simp [findMoney] at h
  | cons c rest ih =>
    cases hm0 : matchMoneyAt (c :: rest) with
    | some m2 =>
      simp only [findMoney, hm0, Option.some_inj] at h
      exact ⟨0, by rw [List.drop_zero, hm0, h], fun j hj => absurd hj (Nat.not_lt_zero j)⟩
    | none =>
      simp only [findMoney, hm0] at h
      obtain ⟨i, hi, hlt⟩ := ih h
      refine ⟨i + 1, hi, ?_⟩
      intro j hj
      cases j with
      | zero =>
        rw [List.drop_zero]
        exact hm0
      | succ j2 => exact hlt j2 (Nat.lt_of_succ_lt_succ hj)

theorem findMoney_ne_none_of_occurs (blob : String) (hocc : moneyOccurs blob) :
    findMoney blob.data ≠ none := by
  intro hf
  obtain ⟨pre, s, post, heq, hm⟩ := hocc
  rw [findMoney_none_iff] at hf
  have hs : s <+: blob.data.drop pre.length := by
    rw [heq, List.append_assoc, List.drop_left]
    exact ⟨post, rfl⟩
  exact matchMoneyAt_ne_none_of_money_prefix _ _ hm hs (hf pre.length)

theorem offerValue_first_match (blob : String) (hocc : moneyOccurs blob) :
    ∃ i m, offerValueOf blob = String.mk m ∧ isMoneyStr m ∧ m <+: blob.data.drop i
      ∧ (∀ j, j < i → ∀ s, isMoneyStr s → ¬ s <+: blob.data.drop j)
      ∧ (∀ s, isMoneyStr s → s <+: blob.data.drop i → s.length ≤ m.length) := by
  cases hf : findMoney blob.data with
  | none => exact absurd hf (findMoney_ne_none_of_occurs blob hocc)
  | some m =>
    obtain ⟨i, hi, hbefore⟩ := findMoney_leftmost _ _ hf
    obtain ⟨hmstr, hpref⟩ := matchMoneyAt_sound _ _ hi
    refine ⟨i, m, ?_, hmstr, hpref, ?_, ?_⟩
    · unfold offerValueOf
      rw [hf]
    · intro j hj s hs hsp
      exact matchMoneyAt_ne_none_of_money_prefix _ _ hs hsp (hbefore j hj)
    · intro s hs hsp
      exact matchMoneyAt_maximal _ _ hi s hs hsp

/-- C5 (confirmed): the offer value is the first match of the monetary
pattern — a dollar amount with optional cents, optionally followed by the
word `off` (case-insensitive) — and the sentinel `"Unknown"` exactly when no
monetary pattern occurs in the combined blob.  "First match" is stated in
full: whenever a monetary pattern occurs, the returned value is a monetary
string occurring at some position of the blob, no monetary string occurs at
any strictly earlier position, and every monetary string at that position is
at most as long as the returned one (the regex's leftmost-greedy match).
The spec's example blob with `$5.99 off` only in the terms yields
`"$5.99 off"`. -/
theorem offer_value_spec :
    (∀ blob : String, offerValueOf blob = "Unknown" ↔ ¬ moneyOccurs blob)
    ∧ (∀ blob : String, moneyOccurs blob →
        ∃ i m, offerValueOf blob = String.mk m ∧ isMoneyStr m ∧ m <+: blob.data.drop i
          ∧ (∀ j, j < i → ∀ s, isMoneyStr s → ¬ s <+: blob.data.drop j)
          ∧ (∀ s, isMoneyStr s → s <+: blob.data.drop i → s.length ≤ m.length))
    ∧ offerValueOf ("Special haircut offer for Springfield, IL area. " ++
        "Get $5.99 off your next visit. Valid at Springfield locations.")
      = "$5.99 off"
    ∧ offerValueOf "Valid at participating salons nationwide." = "Unknown" := by
  refine ⟨offerValue_unknown_iff, offerValue_first_match, by decide, by decide⟩

/-- Witness for C5's first-match clause at the concrete blob `"Get $5 off"`,
whose monetary occurrence is exhibited explicitly. -/
theorem offer_value_spec_witness :
    moneyOccurs "Get $5 off"
    ∧ ∃ i m, offerValueOf "Get $5 off" = String.mk m ∧ isMoneyStr m
        ∧ m <+: ("Get $5 off" : String).data.drop i
        ∧ (∀ j, j < i → ∀ s, isMoneyStr s → ¬ s <+: ("Get $5 off" : String).data.drop j)
        ∧ (∀ s, isMoneyStr s → s <+: ("Get $5 off" : String).data.drop i →
            s.length ≤ m.length) := by
  have hocc : moneyOccurs "Get $5 off" := by
    refine ⟨['G', 'e', 't', ' '], ['$', '5', ' ', 'o', 'f', 'f'], [], by decide, ?_⟩
    exact ⟨['5'], [], [' ', 'o', 'f', 'f'], by decide, by decide, by decide, Or.inl rfl,
      Or.inr ⟨[' '], 'o', 'f', 'f', by decide, by decide, by decide, by decide, by decide⟩⟩
  exact ⟨hocc, offer_value_spec.2.1 "Get $5 off" hocc⟩

theorem asciiLowerN_word (n m : Nat) (h : asciiLowerN n = asciiLowerN m) :
    isWordNat n = isWordNat m := by
  unfold asciiLowerN at h
  unfold isWordNat
  rw [Bool.eq_iff_iff]
  simp only [decide_eq_true_eq]
  split_ifs at h <;> omega

theorem ciEq_word (a b : Char) (h : ciEq a b = true) : isWordChar a = isWordChar b := by
  unfold ciEq at h
  rw [beq_iff_eq] at h
  exact asciiLowerN_word _ _ h

theorem ciStarts_length (a : List Char) : ∀ l, ciStarts a l = true → a.length ≤ l.length := by
  induction a with
  | nil =>
    intro l _
    simp
  | cons x as ih =>
    intro l h
    cases l with
    | nil => simp [ciStarts] at h
    | cons y ls =>
      simp only [ciStarts, Bool.and_eq_true] at h
      simp only [List.length_cons]
      exact Nat.succ_le_succ (ih ls h.2)

theorem ciStarts_getD_word (a : List Char) : ∀ l, ciStarts a l = true →
    ∀ k, k < a.length → isWordChar (a.getD k ' ') = isWordChar (l.getD k ' ') := by
  induction a with
  | nil =>
    intro l _ k hk
    exact absurd hk (by simp)
  | cons x as ih =>
    intro l h k hk
    cases l with
    | nil => simp [ciStarts] at h
    | cons y ls =>
      simp only [ciStarts, Bool.and_eq_true] at h
      cases k with
      | zero =>
        show isWordChar x = isWordChar y
        exact ciEq_word x y h.1
      | succ j =>
        show isWordChar (as.getD j ' ') = isWordChar (ls.getD j ' ')
        exact ih ls h.2 j (Nat.lt_of_succ_lt_succ hk)

theorem getD_drop (i k : Nat) (l : List Char) (d : Char) :
    (l.drop i).getD k d = l.getD (i + k) d := by
  rw [List.getD_eq_getElem?_getD, List.getD_eq_getElem?_getD, List.getElem?_drop]

theorem getD_length_getLast (xs : List Char) : ∀ x : Char,
    (x :: xs).getD xs.length ' ' = (x :: xs).getLast (List.cons_ne_nil x xs) := by
  induction xs with
  | nil => intro x; rfl
  | cons y ys ih =>
    intro x
    show (y :: ys).getD ys.length ' ' = (x :: y :: ys).getLast (List.cons_ne_nil x (y :: ys))
    rw [List.getLast_cons (List.cons_ne_nil y ys)]
    exact ih y

theorem reMatchAt_eq_specWholeWordAt (a0 : Char) (as : List Char) (t : List Char) (i : Nat)
    (hhead : isWordChar a0 = true)
    (hlast : isWordChar ((a0 :: as).getLast (List.cons_ne_nil a0 as)) = true) :
    reMatchAt (a0 :: as) t i = specWholeWordAt (a0 :: as) t i := by
  unfold reMatchAt specWholeWordAt
  by_cases hci : ciStarts (a0 :: as) (t.drop i) = true
  case neg =>
    have hf : ciStarts (a0 :: as) (t.drop i) = false := Bool.eq_false_iff.mpr hci
    rw [hf, Bool.and_false, Bool.false_and, Bool.and_false, Bool.false_and]
  case pos =>
    have hlen : (a0 :: as).length ≤ (t.drop i).length := ciStarts_length _ _ hci
    rw [List.length_drop, List.length_cons] at hlen
    have hi : i < t.length := by omega
    have hw0 : wordAtPos t i = true := by
      have hg := ciStarts_getD_word (a0 :: as) _ hci 0 (by simp)
      rw [getD_drop, Nat.add_zero] at hg
      unfold wordAtPos
      rw [← hg]
      exact hhead
    have hwlast : wordAtPos t (i + as.length) = true := by
      have hk := ciStarts_getD_word (a0 :: as) _ hci as.length (by simp)
      rw [getD_drop] at hk
      unfold wordAtPos
      rw [← hk, getD_length_getLast as a0]
      exact hlast
    have hb1 : reBoundary t i = specLeftBound t i := by
      unfold reBoundary
      rw [hw0]
      cases i with
      | zero => rfl
      | succ j =>
        show (wordAtPos t j != true) = specLeftBound t (j + 1)
        cases hb : wordAtPos t j <;> simp [specLeftBound, hb]
    have hb2 : reBoundary t (i + (a0 :: as).length) = specRightBound t (i + (a0 :: as).length) := by
      have hplus : i + (a0 :: as).length = (i + as.length) + 1 := by
        rw [List.length_cons]
        omega
      rw [hplus]
      unfold reBoundary
      rw [show prevIsWord t ((i + as.length) + 1) = wordAtPos t (i + as.length) from rfl, hwlast]
      by_cases hj : (i + as.length + 1) = t.length
      · have hw : wordAtPos t (i + as.length + 1) = false := by
          unfold wordAtPos
          rw [List.getD_eq_getElem?_getD, List.getElem?_eq_none (by omega)]
          decide
        rw [hw]
        unfold specRightBound
        rw [hw]
        simp [hj]
      · unfold specRightBound
        rw [show ((i + as.length + 1) == t.length) = false from by simp [hj]]
        cases hw : wordAtPos t (i + as.length + 1) <;> simp
    rw [hb1, hb2]

theorem matches_area_word_edged (a0 : Char) (as : List Char) (S : String)
    (hhead : isWordChar a0 = true)
    (hlast : isWordChar ((a0 :: as).getLast (List.cons_ne_nil a0 as)) = true) :
    matches_area (String.mk (a0 :: as)) S = specAreaMatch (String.mk (a0 :: as)) S := by
  unfold matches_area specAreaMatch
  rw [Bool.eq_iff_iff, List.any_eq_true, List.any_eq_true]
  constructor
  · rintro ⟨i, hi, hm⟩
    exact ⟨i, hi, by rwa [← reMatchAt_eq_specWholeWordAt a0 as S.data i hhead hlast]⟩
  · rintro ⟨i, hi, hm⟩
    exact ⟨i, hi, by rwa [reMatchAt_eq_specWholeWordAt a0 as S.data i hhead hlast]⟩

/-- C1 counterexample: for the target area `","` (edge characters are not
word characters) and text `","`, the claim's whole-word reading accepts (the
occurrence is bounded by string edges) but the source's `\b...\b` regex
rejects, because `\b` at a string edge additionally requires the adjacent
matched character to be a word character. -/
theorem area_matcher_claim_counterexample :
    ¬ (matches_area "," "," = specAreaMatch "," ",") := by decide

/-- C1 amended (proved): for every target area that is non-empty and whose
first and last characters are word characters — every ordinary area name —
the Area Matcher returns true iff the text contains the area as a
case-insensitive whole-word/phrase occurrence bounded by non-word characters
or string edges on both sides; in particular `Area Matcher("DC", "EDUCATION
program") = false` and `Area Matcher("DC", "Washington DC area") = true`. -/
theorem area_matcher_word_edged_spec :
    (∀ (a0 : Char) (as : List Char) (S : String),
      isWordChar a0 = true →
      isWordChar ((a0 :: as).getLast (List.cons_ne_nil a0 as)) = true →
      matches_area (String.mk (a0 :: as)) S = specAreaMatch (String.mk (a0 :: as)) S)
    ∧ matches_area "DC" "EDUCATION program" = false
    ∧ matches_area "DC" "Washington DC area" = true := by
  refine ⟨?_, by decide, by decide⟩
  intro a0 as S hh hl
  exact matches_area_word_edged a0 as S hh hl

/-- Witness for the amended C1 theorem at the concrete area `"DC"` and text
`"Washington DC area"`. -/
theorem area_matcher_word_edged_spec_witness :
    matches_area (String.mk ['D', 'C']) "Washington DC area"
      = specAreaMatch (String.mk ['D', 'C']) "Washington DC area" :=
  area_matcher_word_edged_spec.1 'D' ['C'] "Washington DC area" (by decide) (by decide)

